import Mathlib

/-!
Shallow embedding of the chat relay in `src/examples/chat.rs`.

The registry (`State.peers : DashMap<String, mpsc::Sender<Arc<Message>>>`)
is modelled as an association list from peer name to that peer's `Mailbox`.
A `Mailbox` stands for one bounded mpsc channel: `closed` is true when the
owning session has dropped its receiver (so `send` returns `Err`), and
`queue` is the ordered list of messages enqueued but not yet consumed.
A `send` on an open channel whose queue has reached `CHANNEL_BUFFER_SIZE`
suspends (`.await` blocks until capacity frees); this is the `blockedAt`
outcome below.  The broadcast recursion in the source can loop forever, so
the embedding is fuel-indexed: one unit of fuel is spent per loop step, and
`fuelOut` marks a run that was cut off (in particular, a run that returns
`fuelOut` for every fuel diverges).
-/

set_option autoImplicit false

namespace Chat

/-- `enum Message` from chat.rs: join, leave and chat-line messages, each
carrying the originating peer's name (chat.rs lines 24-35). -/
inductive Message where
  | userJoined (client_name : String)
  | userLeft (client_name : String)
  | chat (client_name : String) (content : String)
deriving DecidableEq

/-- `Message::client_name` (chat.rs lines 37-49): the originating peer's
name of a message. -/
def Message.client_name : Message → String
  | .userJoined n => n
  | .userLeft n => n
  | .chat n _ => n

/-- `impl fmt::Display for Message` (chat.rs lines 51-62): how a message is
rendered to the wire. -/
def Message.fmt : Message → String
  | .userJoined n => "[" ++ n ++ "] joined"
  | .userLeft n => "[" ++ n ++ "] left"
  | .chat n c => "[" ++ n ++ "]: " ++ c

/-- `const CHANNEL_BUFFER_SIZE: usize = 1024` (chat.rs line 17): the bound
of every peer's mailbox. -/
def CHANNEL_BUFFER_SIZE : Nat := 1024

/-- One peer's mpsc channel as seen from the registry: `closed` records
that the receiving end was dropped, `queue` the pending messages. -/
structure Mailbox where
  closed : Bool
  queue : List Message
deriving DecidableEq

/-- The `State.peers` map (chat.rs line 66), as an association list. -/
abbrev Registry := List (String × Mailbox)

/-- First-match association-list lookup, the view a `DashMap` read gives. -/
def lookupPeer : Registry → String → Option Mailbox
  | [], _ => none
  | e :: es, k => if e.1 = k then some e.2 else lookupPeer es k

/-- `DashMap::insert`: replace the entry for the key if present, otherwise
append a new entry. -/
def insertPeer : Registry → String → Mailbox → Registry
  | [], k, v => [(k, v)]
  | e :: es, k, v => if e.1 = k then (k, v) :: es else e :: insertPeer es k v

/-- `DashMap::remove`: drop the entry (entries) stored under the key. -/
def removePeer : Registry → String → Registry
  | [], _ => []
  | e :: es, k => if e.1 = k then removePeer es k else e :: removePeer es k

/-- A successful `Sender::send`: append the message at the back of the
named peer's queue. -/
def enqueue (ps : Registry) (k : String) (m : Message) : Registry :=
  ps.map (fun e => if e.1 = k then (e.1, ⟨e.2.closed, e.2.queue ++ [m]⟩) else e)

/-- Outcome of running (a suffix of) `State::broadcast`:
`ok` — the loop finished and returned `Ok(())` (the source's only
return value); `blockedAt k ps` — the run is suspended inside
`send(..).await` on peer `k`'s full mailbox, with registry `ps` at that
instant; `fuelOut` — the run was cut off by lack of fuel. -/
inductive BResult where
  | ok (ps : Registry)
  | blockedAt (k : String) (ps : Registry)
  | fuelOut
deriving DecidableEq

/-- The loop body of `State::broadcast` (chat.rs lines 86-99), iterating
over a snapshot `ks` of the registry's keys.  A peer equal to the
message's originator is skipped (line 90).  A send to a closed mailbox
fails, upon which the source calls `self.remove_client(client_name)` —
note: the message's originator, not the failing peer — and the `?` on
that call propagates its outcome (lines 93-96).  A send to a full open
mailbox suspends.  One unit of fuel is spent per recursive call, so a
diverging source run is exactly a run that yields `fuelOut` at every
fuel. -/
def broadcastAux : Nat → Registry → List String → Message → BResult
  | _, ps, [], _ => .ok ps
  | 0, _, _ :: _, _ => .fuelOut
  | fuel + 1, ps, k :: ks, m =>
    if k = m.client_name then broadcastAux fuel ps ks m
    else
      match lookupPeer ps k with
      | none => broadcastAux fuel ps ks m
      | some mb =>
        if mb.closed then
          match broadcastAux fuel (removePeer ps m.client_name)
              ((removePeer ps m.client_name).map Prod.fst)
              (.userLeft m.client_name) with
          | .ok qs => broadcastAux fuel qs ks m
          | r => r
        else if CHANNEL_BUFFER_SIZE ≤ mb.queue.length then .blockedAt k ps
        else broadcastAux fuel (enqueue ps k m) ks m

/-- `State::broadcast` (chat.rs lines 86-99): fan a message out to every
registered peer except its originator. -/
def broadcast (fuel : Nat) (ps : Registry) (m : Message) : BResult :=
  broadcastAux fuel ps (ps.map Prod.fst) m

/-- `State::remove_client` (chat.rs lines 78-84): remove the entry for the
name, then broadcast a `UserLeft` message for it (removal strictly
before the leave broadcast). -/
def remove_client (fuel : Nat) (ps : Registry) (client_name : String) : BResult :=
  broadcast fuel (removePeer ps client_name) (.userLeft client_name)

/-- `State::add` (chat.rs lines 70-76): create a fresh channel and insert
its sender under the name, overwriting any prior entry.  The source
returns `Ok(Peer { lines, rx })` unconditionally — there is no failure
path — and the paired receiver is the fresh mailbox now stored under
`client_name`. -/
def add (ps : Registry) (client_name : String) : Registry :=
  insertPeer ps client_name ⟨false, []⟩

/-- One readiness event of the Active-state `tokio::select!` loop of
`process_connection` (chat.rs lines 150-164): `deliver writeOk` — the
session's mailbox produced a message, which was written to the line with
the given outcome; `lineRecv` — a line decoded from the client;
`lineDecodeErr` — a decode error on the incoming line; `lineClosed` —
the line stream ended. -/
inductive Event where
  | deliver (writeOk : Bool)
  | lineRecv (content : String)
  | lineDecodeErr
  | lineClosed
deriving DecidableEq

/-- How a run of the Active-state loop of `process_connection` ends:
`running ps` — the given events are consumed and the loop is still
going; `errExit ps` — a `?` inside the loop propagated an error, so the
function returned *without* reaching the `remove_client` call on
chat.rs line 166; `done ps` — the loop hit `break` and the trailing
`remove_client` ran to completion; `stuck` — the run suspended or
diverged inside an awaited broadcast. -/
inductive SessResult where
  | running (ps : Registry)
  | errExit (ps : Registry)
  | done (ps : Registry)
  | stuck
deriving DecidableEq

/-- The Active-state loop and teardown of `process_connection`
(chat.rs lines 150-168) for the session registered under `name`, driven
by a list of readiness events.  The session's mailbox is its registry
entry (no concurrent re-registration is modelled).  On `deliver`, the
message at the front of the mailbox is consumed and written to the line;
a write failure hits the `?` on line 153 and the function returns at
once.  On `lineRecv`, the chat line is broadcast (`?` on line 157).  On
`lineClosed`, the loop breaks and `remove_client` runs (line 166). -/
def runSession (fuel : Nat) (name : String) : Registry → List Event → SessResult
  | ps, [] => .running ps
  | ps, ev :: evs =>
    match ev with
    | .deliver writeOk =>
      match lookupPeer ps name with
      | some mb =>
        match mb.queue with
        | [] => runSession fuel name ps evs
        | _ :: rest =>
          let ps' := ps.map (fun e => if e.1 = name then (e.1, ⟨e.2.closed, rest⟩) else e)
          if writeOk then runSession fuel name ps' evs else .errExit ps'
      | none => runSession fuel name ps evs
    | .lineRecv content =>
      match broadcast fuel ps (.chat name content) with
      | .ok ps' => runSession fuel name ps' evs
      | _ => .stuck
    | .lineDecodeErr => runSession fuel name ps evs
    | .lineClosed =>
      match remove_client fuel ps name with
      | .ok ps' => .done ps'
      | _ => .stuck

/-- One iteration's worth of input to the accept loop in `main`
(chat.rs lines 113-122): either `accept` returned a connection (whose
spawned handler later succeeds or fails as recorded), or `accept`
itself returned an error. -/
inductive AcceptStep where
  | conn (handlerOk : Bool)
  | acceptErr
deriving DecidableEq

/-- How a run of `main`'s accept loop ends: still looping after handling
the given steps, or returned from `main` with an error (the process
terminates), counting the connections accepted so far. -/
inductive MainResult where
  | running (accepted : Nat)
  | exited (accepted : Nat)
deriving DecidableEq

/-- The accept loop of `main` (chat.rs lines 113-122).  A successful
accept spawns a handler task whose error is only logged inside the task
(lines 116-121), so the loop continues regardless of `handlerOk`; an
accept error hits the `?` on line 114 and `main` returns, ending the
process, with the remaining steps never processed. -/
def acceptLoop : List AcceptStep → Nat → MainResult
  | [], n => .running n
  | .conn _ :: rest, n => acceptLoop rest (n + 1)
  | .acceptErr :: _, n => .exited n

/-- Wire format as worded by the spec (sections 6 and 8): chat lines as
"[name]: text", join notices as "[name] joined", leave notices as
"[name] left". -/
def specWireFormat (m : Message) : String :=
  match m with
  | .chat n t => "[" ++ n ++ "]: " ++ t
  | .userJoined n => "[" ++ n ++ "] joined"
  | .userLeft n => "[" ++ n ++ "] left"

/-! ### Basic registry lemmas -/

theorem lookupPeer_some_mem {ps : Registry} {k : String} {mb : Mailbox}
    (h : lookupPeer ps k = some mb) : (k, mb) ∈ ps := by
  induction ps with
  | nil => simp [lookupPeer] at h
  | cons e es ih =>
    by_cases he : e.1 = k
    · simp [lookupPeer, he] at h
      subst he h
      exact List.mem_cons_self _ _
    · simp [lookupPeer, he] at h
      exact List.mem_cons_of_mem _ (ih h)

theorem lookupPeer_isSome_of_mem_keys {ps : Registry} {k : String}
    (h : k ∈ ps.map Prod.fst) : ∃ mb, lookupPeer ps k = some mb := by
  induction ps with
  | nil => simp at h
  | cons e es ih =>
    by_cases he : e.1 = k
    · exact ⟨e.2, by simp [lookupPeer, he]⟩
    · rw [List.map_cons] at h
      rcases List.mem_cons.mp h with h' | h'
      · exact absurd h'.symm he
      · obtain ⟨mb, hmb⟩ := ih h'
        exact ⟨mb, by simp [lookupPeer, he, hmb]⟩

theorem lookupPeer_none_of_not_mem_keys {ps : Registry} {k : String}
    (h : ¬ k ∈ ps.map Prod.fst) : lookupPeer ps k = none := by
  induction ps with
  | nil => rfl
  | cons e es ih =>
    have h1 : ¬ e.1 = k := fun hh => h (by rw [List.map_cons]; exact hh ▸ List.mem_cons_self _ _)
    have h2 : ¬ k ∈ es.map Prod.fst := fun hh =>
      h (by rw [List.map_cons]; exact List.mem_cons_of_mem _ hh)
    simp [lookupPeer, h1, ih h2]

theorem removePeer_eq_of_not_mem {ps : Registry} {k : String}
    (h : ¬ k ∈ ps.map Prod.fst) : removePeer ps k = ps := by
  induction ps with
  | nil => rfl
  | cons e es ih =>
    have h1 : ¬ e.1 = k := fun hh => h (by rw [List.map_cons]; exact hh ▸ List.mem_cons_self _ _)
    have h2 : ¬ k ∈ es.map Prod.fst := fun hh =>
      h (by rw [List.map_cons]; exact List.mem_cons_of_mem _ hh)
    simp [removePeer, h1, ih h2]

theorem lookupPeer_removePeer_self (ps : Registry) (k : String) :
    lookupPeer (removePeer ps k) k = none := by
  induction ps with
  | nil => rfl
  | cons e es ih =>
    by_cases he : e.1 = k
    · simp [removePeer, he, ih]
    · simp [removePeer, lookupPeer, he, ih]

theorem lookupPeer_removePeer_other {j k : String} (ps : Registry) (h : ¬ j = k) :
    lookupPeer (removePeer ps k) j = lookupPeer ps j := by
  induction ps with
  | nil => rfl
  | cons e es ih =>
    by_cases he : e.1 = k
    · have hkj : ¬ k = j := fun hh => h hh.symm
      simp [removePeer, lookupPeer, he, hkj, ih]
    · simp [removePeer, lookupPeer, he, ih]

/-- Lookup through a key-preserving, key-conditioned rewrite of the
mailboxes. -/
theorem lookupPeer_map_cond (ps : Registry) (j : String)
    (c : String → Prop) [DecidablePred c] (g : String → Mailbox → Mailbox) :
    lookupPeer (ps.map (fun e => if c e.1 then (e.1, g e.1 e.2) else e)) j =
      (lookupPeer ps j).map (fun mb => if c j then g j mb else mb) := by
  induction ps with
  | nil => rfl
  | cons e es ih =>
    by_cases he : e.1 = j
    · subst he
      by_cases hc : c e.1 <;> simp [lookupPeer, hc, ih]
    · by_cases hc : c e.1 <;> simp [lookupPeer, he, hc, ih]

theorem lookupPeer_enqueue_self (ps : Registry) (k : String) (m : Message) :
    lookupPeer (enqueue ps k m) k =
      (lookupPeer ps k).map (fun mb => ⟨mb.closed, mb.queue ++ [m]⟩) := by
  have h := lookupPeer_map_cond ps k (fun j => j = k)
    (fun _ mb => ⟨mb.closed, mb.queue ++ [m]⟩)
  simp only [enqueue]
  simpa using h

theorem lookupPeer_enqueue_other {j k : String} (ps : Registry) (m : Message)
    (h : ¬ j = k) : lookupPeer (enqueue ps j m) k = lookupPeer ps k := by
  have hm := lookupPeer_map_cond ps k (fun i => i = j)
    (fun _ mb => ⟨mb.closed, mb.queue ++ [m]⟩)
  simp only [enqueue]
  rw [hm]
  have hkj : ¬ k = j := fun hh => h hh.symm
  simp [hkj]

theorem lookupPeer_insertPeer_self (ps : Registry) (k : String) (v : Mailbox) :
    lookupPeer (insertPeer ps k v) k = some v := by
  induction ps with
  | nil => simp [insertPeer, lookupPeer]
  | cons e es ih =>
    by_cases he : e.1 = k
    · simp [insertPeer, lookupPeer, he]
    · simp [insertPeer, lookupPeer, he, ih]

theorem lookupPeer_insertPeer_other {j k : String} (ps : Registry) (v : Mailbox)
    (h : ¬ j = k) : lookupPeer (insertPeer ps k v) j = lookupPeer ps j := by
  induction ps with
  | nil =>
    have : ¬ k = j := fun hh => h hh.symm
    simp [insertPeer, lookupPeer, this]
  | cons e es ih =>
    by_cases he : e.1 = k
    · have : ¬ k = j := fun hh => h hh.symm
      simp [insertPeer, lookupPeer, he, this]
    · simp [insertPeer, lookupPeer, he, ih]

theorem keys_insertPeer_of_mem {ps : Registry} {k : String} (v : Mailbox)
    (h : k ∈ ps.map Prod.fst) :
    (insertPeer ps k v).map Prod.fst = ps.map Prod.fst := by
  induction ps with
  | nil => simp at h
  | cons e es ih =>
    by_cases he : e.1 = k
    · simp [insertPeer, he]
    · rw [List.map_cons] at h
      rcases List.mem_cons.mp h with h' | h'
      · exact absurd h'.symm he
      · simp [insertPeer, he, ih h']

theorem mem_insertPeer {ps : Registry} {k : String} {v : Mailbox} {e : String × Mailbox}
    (hnd : (ps.map Prod.fst).Nodup) (h : e ∈ insertPeer ps k v) :
    e = (k, v) ∨ (e ∈ ps ∧ ¬ e.1 = k) := by
  induction ps with
  | nil =>
    simp [insertPeer] at h
    exact Or.inl h
  | cons a as ih =>
    rw [List.map_cons, List.nodup_cons] at hnd
    obtain ⟨hnd1, hnd2⟩ := hnd
    by_cases ha : a.1 = k
    · rw [insertPeer, if_pos ha] at h
      rcases List.mem_cons.mp h with h' | h'
      · exact Or.inl h'
      · have hmem : e.1 ∈ as.map Prod.fst := List.mem_map_of_mem Prod.fst h'
        have hne : ¬ e.1 = k := by
          intro he
          exact hnd1 (by rw [ha, ← he]; exact hmem)
        exact Or.inr ⟨List.mem_cons_of_mem _ h', hne⟩
    · rw [insertPeer, if_neg ha] at h
      rcases List.mem_cons.mp h with h' | h'
      · subst h'
        exact Or.inr ⟨List.mem_cons_self _ _, ha⟩
      · rcases ih hnd2 h' with h'' | h''
        · exact Or.inl h''
        · exact Or.inr ⟨List.mem_cons_of_mem _ h''.1, h''.2⟩

theorem lookupPeer_append_left {as : Registry} {j : String} {mb : Mailbox}
    (bs : Registry) (h : lookupPeer as j = some mb) :
    lookupPeer (as ++ bs) j = some mb := by
  induction as with
  | nil => simp [lookupPeer] at h
  | cons e es ih =>
    by_cases he : e.1 = j
    · simp [lookupPeer, he] at h ⊢
      exact h
    · simp [lookupPeer, he] at h ⊢
      exact ih h

theorem lookupPeer_append_right {as : Registry} {j : String}
    (bs : Registry) (h : lookupPeer as j = none) :
    lookupPeer (as ++ bs) j = lookupPeer bs j := by
  induction as with
  | nil => rfl
  | cons e es ih =>
    by_cases he : e.1 = j
    · simp [lookupPeer, he] at h
    · simp [lookupPeer, he] at h ⊢
      exact ih h

/-! ### What a broadcast may add to a mailbox

`extOnly P ps qs` says: every mailbox surviving the step from registry
`ps` to registry `qs` kept its closed-flag and its queue as a prefix, and
every newly appended message satisfies `P` at that mailbox's key. -/

def extOnly (P : String → Message → Prop) (ps qs : Registry) : Prop :=
  ∀ k mb', lookupPeer qs k = some mb' →
    ∃ mb ext, lookupPeer ps k = some mb ∧ mb'.closed = mb.closed ∧
      mb'.queue = mb.queue ++ ext ∧ ∀ x ∈ ext, P k x

theorem extOnly_refl (P : String → Message → Prop) (ps : Registry) : extOnly P ps ps :=
  fun k mb' h => ⟨mb', [], h, rfl, by simp, by simp⟩

theorem extOnly_trans {P : String → Message → Prop} {ps qs rs : Registry}
    (h1 : extOnly P ps qs) (h2 : extOnly P qs rs) : extOnly P ps rs := by
  intro k mb2 hl2
  obtain ⟨mb1, ext2, hl1, hc2, hq2, hp2⟩ := h2 k mb2 hl2
  obtain ⟨mb0, ext1, hl0, hc1, hq1, hp1⟩ := h1 k mb1 hl1
  refine ⟨mb0, ext1 ++ ext2, hl0, hc2.trans hc1, ?_, ?_⟩
  · rw [hq2, hq1, List.append_assoc]
  · intro x hx
    rcases List.mem_append.mp hx with hx | hx
    · exact hp1 x hx
    · exact hp2 x hx

theorem extOnly_mono {P Q : String → Message → Prop} {ps qs : Registry}
    (hPQ : ∀ k x, P k x → Q k x) (h : extOnly P ps qs) : extOnly Q ps qs := by
  intro k mb' hl
  obtain ⟨mb, ext, hl0, hc, hq, hp⟩ := h k mb' hl
  exact ⟨mb, ext, hl0, hc, hq, fun x hx => hPQ k x (hp x hx)⟩

theorem extOnly_removePeer (P : String → Message → Prop) (ps : Registry) (o : String) :
    extOnly P ps (removePeer ps o) := by
  intro k mb' hl
  by_cases hk : k = o
  · rw [hk, lookupPeer_removePeer_self] at hl
    exact absurd hl (by simp)
  · rw [lookupPeer_removePeer_other ps hk] at hl
    exact ⟨mb', [], hl, rfl, by simp, by simp⟩

theorem extOnly_enqueue {P : String → Message → Prop} (ps : Registry)
    {k : String} {m : Message} (hP : P k m) : extOnly P ps (enqueue ps k m) := by
  intro j mb' hl
  by_cases hj : j = k
  · subst hj
    rw [lookupPeer_enqueue_self] at hl
    cases hlo : lookupPeer ps j with
    | none => rw [hlo] at hl; exact absurd hl (by simp)
    | some mb =>
      rw [hlo] at hl
      simp only [Option.map_some'] at hl
      have heq : (⟨mb.closed, mb.queue ++ [m]⟩ : Mailbox) = mb' := Option.some.inj hl
      refine ⟨mb, [m], rfl, by rw [← heq], by rw [← heq], ?_⟩
      intro x hx
      rw [List.mem_singleton.mp hx]
      exact hP
  · rw [lookupPeer_enqueue_other ps m (fun hh => hj hh.symm)] at hl
    exact ⟨mb', [], hl, rfl, by simp, by simp⟩

/-- Everything any run of the broadcast loop appends to some surviving
mailbox keyed `k` is either the broadcast message itself or a synthetic
`UserLeft` for the message's originator, and never a message originated
by `k` itself (the skip on chat.rs line 90 guards every send, including
the sends of the recursive leave broadcasts, which all carry the same
originating name). -/
theorem broadcastAux_extOnly :
    ∀ fuel : Nat, ∀ ks : List String, ∀ ps : Registry, ∀ m : Message, ∀ qs : Registry,
      (broadcastAux fuel ps ks m = .ok qs ∨
        ∃ b, broadcastAux fuel ps ks m = .blockedAt b qs) →
      extOnly (fun k x => (x = m ∨ x = .userLeft m.client_name) ∧ ¬ x.client_name = k) ps qs := by
  intro fuel
  induction fuel with
  | zero =>
    intro ks ps m qs h
    cases ks with
    | nil =>
      rcases h with h | ⟨b, h⟩
      · cases h
        exact extOnly_refl _ _
      · exact absurd h (by simp [broadcastAux])
    | cons k ks' =>
      rcases h with h | ⟨b, h⟩ <;> exact absurd h (by simp [broadcastAux])
  | succ n ih =>
    intro ks ps m qs h
    cases ks with
    | nil =>
      rcases h with h | ⟨b, h⟩
      · cases h
        exact extOnly_refl _ _
      · exact absurd h (by simp [broadcastAux])
    | cons k ks' =>
      by_cases hk : k = m.client_name
      · have hstep : broadcastAux (n + 1) ps (k :: ks') m = broadcastAux n ps ks' m := by
          simp [broadcastAux, hk]
        rw [hstep] at h
        exact ih ks' ps m qs h
      · cases hlp : lookupPeer ps k with
        | none =>
          have hstep : broadcastAux (n + 1) ps (k :: ks') m = broadcastAux n ps ks' m := by
            simp [broadcastAux, hk, hlp]
          rw [hstep] at h
          exact ih ks' ps m qs h
        | some mb =>
          by_cases hcl : mb.closed
          · cases hin : broadcastAux n (removePeer ps m.client_name)
                ((removePeer ps m.client_name).map Prod.fst)
                (.userLeft m.client_name) with
            | ok qs1 =>
              have hstep : broadcastAux (n + 1) ps (k :: ks') m =
                  broadcastAux n qs1 ks' m := by
                simp [broadcastAux, hk, hlp, hcl, hin]
              rw [hstep] at h
              have e1 : extOnly (fun k x => (x = m ∨ x = .userLeft m.client_name) ∧
                  ¬ x.client_name = k) ps (removePeer ps m.client_name) :=
                extOnly_removePeer _ _ _
              have e2 := ih _ _ _ _ (Or.inl hin)
              have e2' : extOnly (fun k x => (x = m ∨ x = .userLeft m.client_name) ∧
                  ¬ x.client_name = k) (removePeer ps m.client_name) qs1 := by
                refine extOnly_mono ?_ e2
                intro j x hx
                obtain ⟨hx1, hx2⟩ := hx
                refine ⟨?_, hx2⟩
                rcases hx1 with hx1 | hx1
                · exact Or.inr hx1
                · exact Or.inr (by rw [hx1]; rfl)
              have e3 := ih ks' qs1 m qs h
              exact extOnly_trans e1 (extOnly_trans e2' e3)
            | blockedAt b1 qs1 =>
              have hstep : broadcastAux (n + 1) ps (k :: ks') m =
                  .blockedAt b1 qs1 := by
                simp [broadcastAux, hk, hlp, hcl, hin]
              rw [hstep] at h
              have hqs : qs = qs1 := by
                rcases h with h | ⟨b, h⟩
                · cases h
                · cases h
                  rfl
              subst hqs
              have e1 : extOnly (fun k x => (x = m ∨ x = .userLeft m.client_name) ∧
                  ¬ x.client_name = k) ps (removePeer ps m.client_name) :=
                extOnly_removePeer _ _ _
              have e2 := ih _ _ _ _ (Or.inr ⟨b1, hin⟩)
              refine extOnly_trans e1 (extOnly_mono ?_ e2)
              intro j x hx
              obtain ⟨hx1, hx2⟩ := hx
              refine ⟨?_, hx2⟩
              rcases hx1 with hx1 | hx1
              · exact Or.inr hx1
              · exact Or.inr (by rw [hx1]; rfl)
            | fuelOut =>
              have hstep : broadcastAux (n + 1) ps (k :: ks') m = .fuelOut := by
                simp [broadcastAux, hk, hlp, hcl, hin]
              rw [hstep] at h
              rcases h with h | ⟨b, h⟩ <;> cases h
          · by_cases hfull : CHANNEL_BUFFER_SIZE ≤ mb.queue.length
            · have hstep : broadcastAux (n + 1) ps (k :: ks') m = .blockedAt k ps := by
                simp [broadcastAux, hk, hlp, hcl, hfull]
              rw [hstep] at h
              rcases h with h | ⟨b, h⟩
              · cases h
              · cases h
                exact extOnly_refl _ _
            · have hstep : broadcastAux (n + 1) ps (k :: ks') m =
                  broadcastAux n (enqueue ps k m) ks' m := by
                simp [broadcastAux, hk, hlp, hcl, hfull]
              rw [hstep] at h
              have e1 : extOnly (fun k' x => (x = m ∨ x = .userLeft m.client_name) ∧
                  ¬ x.client_name = k') ps (enqueue ps k m) := by
                refine extOnly_enqueue ps ⟨Or.inl rfl, ?_⟩
                exact fun hh => hk (hh.symm)
              exact extOnly_trans e1 (ih ks' (enqueue ps k m) m qs h)

/-! ### Failure-free fan-out

When every targeted mailbox is open and below capacity, the loop simply
appends the message to every non-originator mailbox it visits. -/

/-- The registry after appending `m` to every mailbox whose key is in `ks`
and differs from the message's originator. -/
def patchKeys (ps : Registry) (ks : List String) (m : Message) : Registry :=
  ps.map (fun e =>
    if e.1 ∈ ks ∧ ¬ e.1 = m.client_name then (e.1, ⟨e.2.closed, e.2.queue ++ [m]⟩) else e)

theorem patchKeys_nil (ps : Registry) (m : Message) : patchKeys ps [] m = ps := by
  simp [patchKeys]

theorem no_entry_of_lookupPeer_none {ps : Registry} {k : String}
    (h : lookupPeer ps k = none) : ∀ e ∈ ps, ¬ e.1 = k := by
  intro e he hk
  obtain ⟨mb, hmb⟩ := lookupPeer_isSome_of_mem_keys (hk ▸ List.mem_map_of_mem Prod.fst he)
  rw [hmb] at h
  cases h

theorem patchKeys_cons_skip {ps : Registry} {k : String} {ks : List String} {m : Message}
    (h : ∀ e ∈ ps, e.1 = k → e.1 = m.client_name) :
    patchKeys ps (k :: ks) m = patchKeys ps ks m := by
  unfold patchKeys
  apply List.map_congr_left
  intro e he
  by_cases hek : e.1 = k
  · have := h e he hek
    simp [this]
  · simp [List.mem_cons, hek]

theorem patchKeys_enqueue_comm {ps : Registry} {ks : List String} {k : String} {m : Message}
    (hknotin : ¬ k ∈ ks) (hk : ¬ k = m.client_name) :
    patchKeys (enqueue ps k m) ks m = patchKeys ps (k :: ks) m := by
  unfold patchKeys enqueue
  rw [List.map_map]
  apply List.map_congr_left
  intro e _
  by_cases hek : e.1 = k
  · simp [Function.comp_apply, hek, hknotin, hk, List.mem_cons]
  · simp only [Function.comp_apply, if_neg hek]
    by_cases hcn : e.1 = m.client_name
    · simp [hcn]
    · simp [hek, hcn, List.mem_cons]

theorem keys_patchKeys (ps : Registry) (ks : List String) (m : Message) :
    (patchKeys ps ks m).map Prod.fst = ps.map Prod.fst := by
  unfold patchKeys
  rw [List.map_map]
  apply List.map_congr_left
  intro e _
  by_cases hc : e.1 ∈ ks ∧ ¬ e.1 = m.client_name <;> simp [hc]

theorem broadcastAux_clean (m : Message) :
    ∀ ks : List String, ∀ fuel : Nat, ∀ ps : Registry, ks.Nodup →
      ks.length ≤ fuel →
      (∀ e ∈ ps, e.1 ∈ ks → ¬ e.1 = m.client_name →
        e.2.closed = false ∧ e.2.queue.length < CHANNEL_BUFFER_SIZE) →
      broadcastAux fuel ps ks m = .ok (patchKeys ps ks m) := by
  intro ks
  induction ks with
  | nil =>
    intro fuel ps _ _ _
    rw [patchKeys_nil]
    cases fuel <;> rfl
  | cons k ks' ih =>
    intro fuel ps hnd hlen hcond
    obtain ⟨n, rfl⟩ : ∃ n, fuel = n + 1 := by
      cases fuel with
      | zero => simp at hlen
      | succ n => exact ⟨n, rfl⟩
    rw [List.nodup_cons] at hnd
    obtain ⟨hknotin, hnd'⟩ := hnd
    have hlen' : ks'.length ≤ n := by
      simpa using hlen
    by_cases hk : k = m.client_name
    · have hstep : broadcastAux (n + 1) ps (k :: ks') m = broadcastAux n ps ks' m := by
        simp [broadcastAux, hk]
      rw [hstep, ih n ps hnd' hlen'
        (fun e he hm hcn => hcond e he (List.mem_cons_of_mem _ hm) hcn),
        patchKeys_cons_skip (fun e _ hek => by rw [hek, hk])]
    · cases hlp : lookupPeer ps k with
      | none =>
        have hstep : broadcastAux (n + 1) ps (k :: ks') m = broadcastAux n ps ks' m := by
          simp [broadcastAux, hk, hlp]
        have hnok := no_entry_of_lookupPeer_none hlp
        rw [hstep, ih n ps hnd' hlen'
          (fun e he hm hcn => hcond e he (List.mem_cons_of_mem _ hm) hcn),
          patchKeys_cons_skip (fun e he hek => absurd hek (hnok e he))]
      | some mb =>
        have hmem : (k, mb) ∈ ps := lookupPeer_some_mem hlp
        obtain ⟨hcl0, hfull0⟩ := hcond (k, mb) hmem (List.mem_cons_self _ _) hk
        have hcl : mb.closed = false := hcl0
        have hfull : mb.queue.length < CHANNEL_BUFFER_SIZE := hfull0
        have hnotfull : ¬ CHANNEL_BUFFER_SIZE ≤ mb.queue.length := by omega
        have hstep : broadcastAux (n + 1) ps (k :: ks') m =
            broadcastAux n (enqueue ps k m) ks' m := by
          simp [broadcastAux, hk, hlp, hcl, hnotfull]
        have hcond' : ∀ e ∈ enqueue ps k m, e.1 ∈ ks' → ¬ e.1 = m.client_name →
            e.2.closed = false ∧ e.2.queue.length < CHANNEL_BUFFER_SIZE := by
          intro e' he' hm' hcn'
          obtain ⟨e, he, rfl⟩ := List.mem_map.mp he'
          by_cases hek : e.1 = k
          · exact absurd (by simpa [hek] using hm') hknotin
          · rw [if_neg hek] at hm' hcn' ⊢
            exact hcond e he (List.mem_cons_of_mem _ hm') hcn'
        rw [hstep, ih n (enqueue ps k m) hnd' hlen' hcond',
          patchKeys_enqueue_comm hknotin hk]

/-- A failure-free run of `State::broadcast`: with distinct names and
every non-originator mailbox open and below capacity, the loop returns
`Ok(())` having appended the message once, at the back, to every
registered mailbox except the originator's, and touched nothing else. -/
theorem broadcast_clean (fuel : Nat) (ps : Registry) (m : Message)
    (hnd : (ps.map Prod.fst).Nodup)
    (hfuel : ps.length ≤ fuel)
    (hcond : ∀ e ∈ ps, ¬ e.1 = m.client_name →
      e.2.closed = false ∧ e.2.queue.length < CHANNEL_BUFFER_SIZE) :
    broadcast fuel ps m = .ok (ps.map (fun e =>
      if ¬ e.1 = m.client_name then (e.1, ⟨e.2.closed, e.2.queue ++ [m]⟩) else e)) := by
  rw [broadcast, broadcastAux_clean m (ps.map Prod.fst) fuel ps hnd
    (by simpa using hfuel) (fun e he _ hcn => hcond e he hcn)]
  congr 1
  unfold patchKeys
  apply List.map_congr_left
  intro e he
  have hmem : e.1 ∈ ps.map Prod.fst := List.mem_map_of_mem Prod.fst he
  by_cases hcn : e.1 = m.client_name <;> simp [hmem, hcn]

/-! ### A full mailbox suspends the fan-out loop -/

/-- If the keys visited before `k` all lead to open, below-capacity (or
absent, or originator) mailboxes, and `k`'s mailbox is open and at
capacity, the loop suspends inside the send to `k`: the result is
`blockedAt k` with only the earlier peers served, the message not yet in
`k`'s queue, and every later key unvisited. -/
theorem broadcastAux_blocked (m : Message) :
    ∀ preKeys : List String, ∀ fuel : Nat, ∀ ps : Registry, ∀ k : String, ∀ mb : Mailbox,
      ∀ rest : List String,
      preKeys.Nodup → ¬ k ∈ preKeys →
      (∀ j ∈ preKeys, ¬ j = m.client_name → ∀ mbj, lookupPeer ps j = some mbj →
        mbj.closed = false ∧ mbj.queue.length < CHANNEL_BUFFER_SIZE) →
      lookupPeer ps k = some mb → ¬ k = m.client_name →
      mb.closed = false → CHANNEL_BUFFER_SIZE ≤ mb.queue.length →
      preKeys.length < fuel →
      broadcastAux fuel ps (preKeys ++ k :: rest) m =
        .blockedAt k (patchKeys ps preKeys m) := by
  intro preKeys
  induction preKeys with
  | nil =>
    intro fuel ps k mb rest _ _ _ hlk hk hcl hfull hfuel
    obtain ⟨n, rfl⟩ : ∃ n, fuel = n + 1 := ⟨fuel - 1, by omega⟩
    rw [patchKeys_nil]
    simp [broadcastAux, hk, hlk, hcl, hfull]
  | cons j js ih =>
    intro fuel ps k mb rest hnd hknotin hpre hlk hk hcl hfull hfuel
    obtain ⟨n, rfl⟩ : ∃ n, fuel = n + 1 := ⟨fuel - 1, by omega⟩
    rw [List.nodup_cons] at hnd
    obtain ⟨hjnotin, hnd'⟩ := hnd
    have hkj : ¬ k = j := fun hh => hknotin (by rw [hh]; exact List.mem_cons_self _ _)
    have hknotin' : ¬ k ∈ js := fun hh => hknotin (List.mem_cons_of_mem _ hh)
    have hfuel' : js.length < n := by simpa using hfuel
    by_cases hj : j = m.client_name
    · have hstep : broadcastAux (n + 1) ps ((j :: js) ++ k :: rest) m =
          broadcastAux n ps (js ++ k :: rest) m := by
        simp [broadcastAux, hj]
      rw [hstep, ih n ps k mb rest hnd' hknotin'
        (fun i hi => hpre i (List.mem_cons_of_mem _ hi)) hlk hk hcl hfull hfuel',
        patchKeys_cons_skip (fun e _ hej => hej.trans hj)]
    · cases hlj : lookupPeer ps j with
      | none =>
        have hstep : broadcastAux (n + 1) ps ((j :: js) ++ k :: rest) m =
            broadcastAux n ps (js ++ k :: rest) m := by
          simp [broadcastAux, hj, hlj]
        rw [hstep, ih n ps k mb rest hnd' hknotin'
          (fun i hi => hpre i (List.mem_cons_of_mem _ hi)) hlk hk hcl hfull hfuel',
          patchKeys_cons_skip (fun e he hej =>
            absurd hej (no_entry_of_lookupPeer_none hlj e he))]
      | some mbj =>
        obtain ⟨hclj, hfullj⟩ := hpre j (List.mem_cons_self _ _) hj mbj hlj
        have hnotfullj : ¬ CHANNEL_BUFFER_SIZE ≤ mbj.queue.length := by omega
        have hstep : broadcastAux (n + 1) ps ((j :: js) ++ k :: rest) m =
            broadcastAux n (enqueue ps j m) (js ++ k :: rest) m := by
          simp [broadcastAux, hj, hlj, hclj, hnotfullj]
        have hpre' : ∀ i ∈ js, ¬ i = m.client_name → ∀ mbi,
            lookupPeer (enqueue ps j m) i = some mbi →
            mbi.closed = false ∧ mbi.queue.length < CHANNEL_BUFFER_SIZE := by
          intro i hi hicn mbi hli
          have hij : ¬ i = j := fun hh => hjnotin (hh ▸ hi)
          rw [lookupPeer_enqueue_other ps m (fun hh => hij hh.symm)] at hli
          exact hpre i (List.mem_cons_of_mem _ hi) hicn mbi hli
        have hlk' : lookupPeer (enqueue ps j m) k = some mb := by
          rw [lookupPeer_enqueue_other ps m (fun hh => hkj hh.symm)]
          exact hlk
        rw [hstep, ih n (enqueue ps j m) k mb rest hnd' hknotin' hpre' hlk' hk hcl hfull hfuel',
          patchKeys_enqueue_comm hjnotin hj]

/-- Splitting the patched registry around an untouched entry whose key is
not among the patched keys. -/
theorem patchKeys_decompose (pre post : Registry) (k : String) (mb : Mailbox) (m : Message)
    (hnd : ((pre ++ (k, mb) :: post).map Prod.fst).Nodup) :
    patchKeys (pre ++ (k, mb) :: post) (pre.map Prod.fst) m =
      (pre.map (fun e =>
        if ¬ e.1 = m.client_name then (e.1, ⟨e.2.closed, e.2.queue ++ [m]⟩) else e))
        ++ (k, mb) :: post := by
  rw [List.map_append] at hnd
  rw [List.nodup_append] at hnd
  obtain ⟨_, _, hdisj⟩ := hnd
  unfold patchKeys
  rw [List.map_append]
  congr 1
  · apply List.map_congr_left
    intro e he
    have hmem : e.1 ∈ pre.map Prod.fst := List.mem_map_of_mem Prod.fst he
    by_cases hcn : e.1 = m.client_name <;> simp [hmem, hcn]
  · rw [List.map_cons]
    have hkpre : ¬ k ∈ pre.map Prod.fst := by
      intro hh
      exact hdisj hh (by simp)
    have hhd : (if (k, mb).1 ∈ pre.map Prod.fst ∧ ¬ (k, mb).1 = m.client_name
        then ((k, mb).1, ⟨(k, mb).2.closed, (k, mb).2.queue ++ [m]⟩) else (k, mb)) = (k, mb) := by
      simp [hkpre]
    rw [hhd]
    congr 1
    have hpost : ∀ e ∈ post, ¬ e.1 ∈ pre.map Prod.fst := by
      intro e he hh
      refine hdisj hh ?_
      rw [List.map_cons]
      exact List.mem_cons_of_mem _ (List.mem_map_of_mem Prod.fst he)
    calc post.map (fun e =>
          if e.1 ∈ pre.map Prod.fst ∧ ¬ e.1 = m.client_name
          then (e.1, ⟨e.2.closed, e.2.queue ++ [m]⟩) else e)
        = post.map (fun e => e) := by
          apply List.map_congr_left
          intro e he
          simp [hpost e he]
      _ = post := List.map_id' post

/-! ### Claim theorems -/

/-- Helper for C1/C10: the registry left after the buggy removal of the
originator "o" — the dead peer "x" is still present. -/
def c1Removed : Registry := [("x", ⟨true, []⟩), ("z", ⟨false, []⟩)]

/-- Helper for C1: once "o" has been removed, every further fuel level
still hits the closed mailbox of "x" first, removes the absent "o" again,
and re-broadcasts `Left("o")` — the run never gets past "x". -/
theorem c1_loop : ∀ f : Nat,
    broadcastAux f c1Removed ["x", "z"] (.userLeft "o") = .fuelOut := by
  intro f
  induction f with
  | zero => rfl
  | succ n ihf =>
    simp only [c1Removed] at ihf
    simp [broadcastAux, c1Removed, lookupPeer, removePeer, Message.client_name, ihf]

/-- C1: the claim says that when a send to peer X fails mid-broadcast, X
is deregistered and `Left(X)` is broadcast.  The code instead calls
`remove_client(client_name)` with the *originator's* name (chat.rs line
95), so on the registry {o (broadcaster), x (receiver dropped), z} a chat
by "o" removes "o", leaves the dead "x" registered, and recursively
re-broadcasts `Left("o")` into the still-failing send to "x" forever:
the run exhausts every fuel, i.e. the source diverges, and no `Left("x")`
is ever produced. -/
theorem c1_dead_peer_eviction_bug :
    ∀ fuel : Nat, broadcast fuel
      [("o", ⟨false, []⟩), ("x", ⟨true, []⟩), ("z", ⟨false, []⟩)]
      (.chat "o" "hi") = .fuelOut := by
  intro fuel
  match fuel with
  | 0 => rfl
  | 1 => rfl
  | (n + 2) =>
    have hinner := c1_loop n
    simp only [c1Removed] at hinner
    simp [broadcast, broadcastAux, lookupPeer, removePeer,
      Message.client_name, hinner]

/-- Helper for C2: alice is Active with one pending mailbox message; bob
is the other registered peer. -/
def c2Registry : Registry := [("alice", ⟨false, [.userJoined "bob"]⟩), ("bob", ⟨false, []⟩)]

/-- Helper for C2: the registry at the moment the session errors out —
alice has consumed the mailbox message but is still registered, and bob
has received nothing. -/
def c2After : Registry := [("alice", ⟨false, []⟩), ("bob", ⟨false, []⟩)]

/-- C2: the claim says every termination of an Active session removes the
name from the registry and broadcasts `Left(name)`.  But on a write
failure the `?` on chat.rs line 153 returns from `process_connection`
before the `remove_client` call on line 166: the session ends with
"alice" still registered and no `Left("alice")` in bob's mailbox. -/
theorem c2_write_failure_skips_cleanup :
    runSession 5 "alice" c2Registry [.deliver false] = .errExit c2After ∧
    c2After.map Prod.fst = ["alice", "bob"] ∧
    lookupPeer c2After "bob" = some ⟨false, []⟩ := by
  refine ⟨rfl, rfl, rfl⟩

/-- C6 counterexample: the claim says a failed accept is logged and the
loop keeps accepting.  In the code the `?` on chat.rs line 114 propagates
the accept error out of `main`: after a failed accept followed by a
perfectly good connection, the loop has exited having accepted nothing —
it did not continue to the next connection. -/
theorem c6_counterexample :
    acceptLoop [.acceptErr, .conn true] 0 = .exited 0 ∧
    ¬ acceptLoop [.acceptErr, .conn true] 0 = .running 1 := by
  refine ⟨rfl, by decide⟩

/-- C6 amended: a single accept failure terminates the process — the
error propagates out of `main` and no further connection is accepted;
only errors of spawned per-connection handlers are tolerated (logged
inside the task, loop unaffected). -/
theorem c6_accept_error_fatal :
    (∀ (rest : List AcceptStep) (n : Nat), acceptLoop (.acceptErr :: rest) n = .exited n) ∧
    (∀ (ok : Bool) (rest : List AcceptStep) (n : Nat),
      acceptLoop (.conn ok :: rest) n = acceptLoop rest (n + 1)) :=
  ⟨fun _ _ => rfl, fun _ _ _ => rfl⟩

/-- C8: every message is rendered to the wire exactly as the spec words
it — `Chat{name, text}` as "[name]: text", `Joined{name}` as
"[name] joined", `Left{name}` as "[name] left" — checked both against a
definition transcribed from the spec's wording and on the spec's own
concrete scenario strings. -/
theorem c8_wire_format :
    (∀ m : Message, Message.fmt m = specWireFormat m) ∧
    Message.fmt (.userJoined "bob") = "[bob] joined" ∧
    Message.fmt (.chat "bob" "hello") = "[bob]: hello" ∧
    Message.fmt (.userLeft "alice") = "[alice] left" := by
  refine ⟨fun m => ?_, by decide, by decide, by decide⟩
  cases m <;> rfl

/-- Keys are untouched by any key-conditioned mailbox rewrite. -/
theorem keys_map_cond (ps : Registry) (c : String → Prop) [DecidablePred c]
    (g : String → Mailbox → Mailbox) :
    (ps.map (fun e => if c e.1 then (e.1, g e.1 e.2) else e)).map Prod.fst =
      ps.map Prod.fst := by
  rw [List.map_map]
  apply List.map_congr_left
  intro e _
  by_cases hc : c e.1 <;> simp [hc]

/-- Lookup in the registry a failure-free broadcast leaves behind. -/
theorem lookupPeer_broadcast_patch (ps : Registry) (m : Message) (j : String) :
    lookupPeer (ps.map (fun e =>
      if ¬ e.1 = m.client_name then (e.1, ⟨e.2.closed, e.2.queue ++ [m]⟩) else e)) j =
      (lookupPeer ps j).map (fun mb =>
        if ¬ j = m.client_name then ⟨mb.closed, mb.queue ++ [m]⟩ else mb) :=
  lookupPeer_map_cond ps j (fun i => ¬ i = m.client_name)
    (fun _ mb => ⟨mb.closed, mb.queue ++ [m]⟩)

/-- C3: with all registered names distinct and every other peer's mailbox
accepting (open and with room for both messages), two successive chat
broadcasts by `p` each return `Ok(())`, and each registered peer other
than `p` ends with exactly one copy of each message appended at the back
of its mailbox, in the order sent — `p`'s own entry is untouched.  (The
per-mailbox FIFO of the spec is the queue order itself: the source pushes
with `Sender::send` and the session pops with `Receiver::recv`, both ends
of one ordered channel.) -/
theorem c3_fanout_exactly_once_fifo (fuel1 fuel2 : Nat) (ps : Registry) (p t1 t2 : String)
    (hnd : (ps.map Prod.fst).Nodup)
    (hf1 : ps.length ≤ fuel1) (hf2 : ps.length ≤ fuel2)
    (hcond : ∀ e ∈ ps, ¬ e.1 = p →
      e.2.closed = false ∧ e.2.queue.length + 2 ≤ CHANNEL_BUFFER_SIZE) :
    ∃ qs : Registry,
      broadcast fuel1 ps (.chat p t1) = .ok qs ∧
      qs = ps.map (fun e =>
        if ¬ e.1 = p then (e.1, ⟨e.2.closed, e.2.queue ++ [.chat p t1]⟩) else e) ∧
      broadcast fuel2 qs (.chat p t2) = .ok (ps.map (fun e =>
        if ¬ e.1 = p then (e.1, ⟨e.2.closed, e.2.queue ++ [.chat p t1, .chat p t2]⟩)
        else e)) := by
  have hcn1 : (Message.chat p t1).client_name = p := rfl
  have hcn2 : (Message.chat p t2).client_name = p := rfl
  have h1 := broadcast_clean fuel1 ps (.chat p t1) hnd hf1
    (fun e he hcn => (hcond e he (by rw [hcn1] at hcn; exact hcn)).imp id (fun hl => by omega))
  refine ⟨_, h1, by rw [hcn1], ?_⟩
  set qs := ps.map (fun e =>
    if ¬ e.1 = (Message.chat p t1).client_name
    then (e.1, ⟨e.2.closed, e.2.queue ++ [Message.chat p t1]⟩) else e) with hqs
  have hkeysq : qs.map Prod.fst = ps.map Prod.fst := by
    rw [hqs, List.map_map]
    apply List.map_congr_left
    intro e _
    by_cases hc : e.1 = (Message.chat p t1).client_name <;> simp [hc]
  have hndq : (qs.map Prod.fst).Nodup := by
    rw [hkeysq]
    exact hnd
  have hlenq : qs.length ≤ fuel2 := by
    rw [hqs, List.length_map]
    exact hf2
  have hcondq : ∀ e ∈ qs, ¬ e.1 = (Message.chat p t2).client_name →
      e.2.closed = false ∧ e.2.queue.length < CHANNEL_BUFFER_SIZE := by
    intro e' he' hcn'
    rw [hcn2] at hcn'
    rw [hqs] at he'
    obtain ⟨e, he, rfl⟩ := List.mem_map.mp he'
    by_cases hep : e.1 = p
    · rw [hcn1] at *
      simp only [hep, not_true_eq_false, if_neg, ite_not, if_pos] at hcn' ⊢
      exact absurd hep hcn'
    · rw [hcn1]
      obtain ⟨hc, hl⟩ := hcond e he hep
      simp only [hep, not_false_eq_true, if_pos]
      constructor
      · exact hc
      · simp only [List.length_append, List.length_singleton]
        omega
  have h2 := broadcast_clean fuel2 qs (.chat p t2) hndq hlenq hcondq
  rw [h2]
  congr 1
  rw [hqs, List.map_map]
  apply List.map_congr_left
  intro e _
  by_cases hep : e.1 = p
  · simp [Function.comp_apply, hcn1, hcn2, hep]
  · simp [Function.comp_apply, hcn1, hcn2, hep]

/-- C3 witness: on the two-peer registry {p1, q}, two chats by "p1" land
exactly once each, in order, in q's mailbox only. -/
theorem c3_witness :
    ∃ qs : Registry,
      broadcast 2 [("p1", ⟨false, []⟩), ("q", ⟨false, []⟩)] (.chat "p1" "a") = .ok qs ∧
      qs = [("p1", (⟨false, []⟩ : Mailbox)), ("q", ⟨false, []⟩)].map (fun e =>
        if ¬ e.1 = "p1" then (e.1, ⟨e.2.closed, e.2.queue ++ [.chat "p1" "a"]⟩) else e) ∧
      broadcast 2 qs (.chat "p1" "b") =
        .ok ([("p1", (⟨false, []⟩ : Mailbox)), ("q", ⟨false, []⟩)].map (fun e =>
          if ¬ e.1 = "p1" then
            (e.1, ⟨e.2.closed, e.2.queue ++ [.chat "p1" "a", .chat "p1" "b"]⟩)
          else e)) :=
  c3_fanout_exactly_once_fifo 2 2 [("p1", ⟨false, []⟩), ("q", ⟨false, []⟩)] "p1" "a" "b"
    (by decide) (by decide) (by decide) (by decide)

/-- C9: `remove_client` on a name absent from the registry leaves the map
unchanged (the `DashMap::remove` is a no-op) but still broadcasts
`Left(name)`, which — the absent name matching no registered peer — is
appended to every registered peer's mailbox. -/
theorem c9_remove_absent_broadcasts (fuel : Nat) (ps : Registry) (name : String)
    (habs : ¬ name ∈ ps.map Prod.fst)
    (hnd : (ps.map Prod.fst).Nodup)
    (hfuel : ps.length ≤ fuel)
    (hcond : ∀ e ∈ ps, e.2.closed = false ∧ e.2.queue.length < CHANNEL_BUFFER_SIZE) :
    remove_client fuel ps name = .ok (ps.map (fun e =>
      (e.1, ⟨e.2.closed, e.2.queue ++ [.userLeft name]⟩))) := by
  rw [remove_client, removePeer_eq_of_not_mem habs,
    broadcast_clean fuel ps _ hnd hfuel (fun e he _ => hcond e he)]
  congr 1
  apply List.map_congr_left
  intro e he
  have hne : ¬ e.1 = (Message.userLeft name).client_name := by
    intro hh
    have hh' : e.1 = name := hh
    exact habs (hh' ▸ List.mem_map_of_mem Prod.fst he)
  simp [hne]

/-- C9 witness: removing the never-registered "ghost" from the registry
{b} leaves b registered and delivers `Left("ghost")` to b. -/
theorem c9_witness :
    remove_client 1 [("b", ⟨false, []⟩)] "ghost" =
      .ok ([("b", (⟨false, []⟩ : Mailbox))].map (fun e =>
        (e.1, ⟨e.2.closed, e.2.queue ++ [.userLeft "ghost"]⟩))) :=
  c9_remove_absent_broadcasts 1 [("b", ⟨false, []⟩)] "ghost"
    (by decide) (by decide) (by decide) (by decide)

/-- C5: `State::add` always succeeds (the source returns `Ok`
unconditionally): for every name it installs a fresh open empty mailbox
under that name — overwriting any prior entry while preserving every
other entry and the key set — and a subsequent failure-free broadcast by
another peer reaches only the second registration's mailbox, whose queue
then holds exactly that one message (nothing of the first session's
queue survives). -/
theorem c5_register_overwrites (fuel : Nat) (ps : Registry) (name p t : String)
    (oldMb : Mailbox)
    (hold : lookupPeer ps name = some oldMb)
    (hnd : (ps.map Prod.fst).Nodup)
    (hp : ¬ p = name)
    (hfuel : ps.length ≤ fuel)
    (hcond : ∀ e ∈ ps, ¬ e.1 = name → ¬ e.1 = p →
      e.2.closed = false ∧ e.2.queue.length < CHANNEL_BUFFER_SIZE) :
    lookupPeer (add ps name) name = some ⟨false, []⟩ ∧
    (∀ j : String, ¬ j = name → lookupPeer (add ps name) j = lookupPeer ps j) ∧
    (add ps name).map Prod.fst = ps.map Prod.fst ∧
    ∃ qs : Registry, broadcast fuel (add ps name) (.chat p t) = .ok qs ∧
      lookupPeer qs name = some ⟨false, [.chat p t]⟩ := by
  have hmemname : name ∈ ps.map Prod.fst :=
    List.mem_map_of_mem Prod.fst (lookupPeer_some_mem hold)
  have hkeys : (add ps name).map Prod.fst = ps.map Prod.fst :=
    keys_insertPeer_of_mem _ hmemname
  refine ⟨lookupPeer_insertPeer_self ps name _,
    fun j hj => lookupPeer_insertPeer_other ps _ hj, hkeys, ?_⟩
  have hnd' : ((add ps name).map Prod.fst).Nodup := by
    rw [hkeys]; exact hnd
  have hlen' : (add ps name).length ≤ fuel := by
    have h1 : (add ps name).length = ((add ps name).map Prod.fst).length :=
      (List.length_map _ _).symm
    have h2 : (ps.map Prod.fst).length = ps.length := List.length_map _ _
    rw [h1, hkeys, h2]
    exact hfuel
  have hcond' : ∀ e ∈ add ps name, ¬ e.1 = (Message.chat p t).client_name →
      e.2.closed = false ∧ e.2.queue.length < CHANNEL_BUFFER_SIZE := by
    intro e he hcn
    rcases mem_insertPeer hnd he with he' | ⟨he', hne⟩
    · rw [he']
      refine ⟨rfl, ?_⟩
      show 0 < CHANNEL_BUFFER_SIZE
      decide
    · exact hcond e he' hne hcn
  have h1 := broadcast_clean fuel (add ps name) (.chat p t) hnd' hlen' hcond'
  refine ⟨_, h1, ?_⟩
  have hlook : lookupPeer (add ps name) name = some ⟨false, []⟩ :=
    lookupPeer_insertPeer_self ps name _
  rw [lookupPeer_broadcast_patch, hlook]
  have hnp : ¬ name = (Message.chat p t).client_name := fun hh => hp (hh.symm)
  simp [hnp]

/-- C5 witness: re-registering "dup" (whose first mailbox holds stale
messages) resets its entry to a fresh mailbox; a chat by "other" then
lands only in the fresh mailbox, which afterwards holds exactly that
message. -/
theorem c5_witness :
    lookupPeer (add [("dup", ⟨false, [.chat "other" "stale"]⟩),
      ("other", ⟨false, []⟩)] "dup") "dup" = some ⟨false, []⟩ ∧
    (∀ j : String, ¬ j = "dup" →
      lookupPeer (add [("dup", ⟨false, [.chat "other" "stale"]⟩),
        ("other", ⟨false, []⟩)] "dup") j =
      lookupPeer [("dup", ⟨false, [.chat "other" "stale"]⟩), ("other", ⟨false, []⟩)] j) ∧
    (add [("dup", ⟨false, [.chat "other" "stale"]⟩),
      ("other", ⟨false, []⟩)] "dup").map Prod.fst = ["dup", "other"] ∧
    ∃ qs : Registry,
      broadcast 2 (add [("dup", ⟨false, [.chat "other" "stale"]⟩),
        ("other", ⟨false, []⟩)] "dup") (.chat "other" "hi") = .ok qs ∧
      lookupPeer qs "dup" = some ⟨false, [.chat "other" "hi"]⟩ :=
  c5_register_overwrites 2
    [("dup", ⟨false, [.chat "other" "stale"]⟩), ("other", ⟨false, []⟩)]
    "dup" "other" "hi" ⟨false, [.chat "other" "stale"]⟩
    (by decide) (by decide) (by decide) (by decide) (by decide)

/-- C4: no self-echo.  For any run of `State::broadcast` — completed or
suspended mid-send — any message sitting in the mailbox registered under
name `P` whose originating name is `P` was already there before the
broadcast: neither the broadcast message nor any of the recursive
`UserLeft` messages is ever enqueued onto the mailbox registered under
its own originating name (the skip on chat.rs line 90). -/
theorem c4_no_self_echo (fuel : Nat) (ps qs : Registry) (m : Message)
    (h : broadcast fuel ps m = .ok qs ∨ ∃ b, broadcast fuel ps m = .blockedAt b qs)
    (P : String) (mb' : Mailbox) (hq : lookupPeer qs P = some mb')
    (x : Message) (hx : x ∈ mb'.queue) (hxP : x.client_name = P) :
    ∃ mb, lookupPeer ps P = some mb ∧ x ∈ mb.queue := by
  rw [broadcast] at h
  have hext := broadcastAux_extOnly fuel (ps.map Prod.fst) ps m qs h
  obtain ⟨mb, ext, hl, _, hqeq, hpext⟩ := hext P mb' hq
  refine ⟨mb, hl, ?_⟩
  rw [hqeq] at hx
  rcases List.mem_append.mp hx with hx' | hx'
  · exact hx'
  · exact absurd hxP (hpext x hx').2

/-- C4 witness: after "a" chats on the registry {a, b}, the message
originated by "b" found in b's mailbox was already there before the
broadcast. -/
theorem c4_witness :
    ∃ mb, lookupPeer [("a", ⟨false, []⟩), ("b", ⟨false, [.chat "b" "old"]⟩)] "b" = some mb ∧
      Message.chat "b" "old" ∈ mb.queue :=
  c4_no_self_echo 2 [("a", ⟨false, []⟩), ("b", ⟨false, [.chat "b" "old"]⟩)]
    [("a", ⟨false, []⟩), ("b", ⟨false, [.chat "b" "old", .chat "a" "hi"]⟩)]
    (.chat "a" "hi") (Or.inl rfl) "b" ⟨false, [.chat "b" "old", .chat "a" "hi"]⟩ rfl
    (.chat "b" "old") (by decide) rfl

/-- C10: the fan-out is not atomic under failure.  When the loop reaches
peer `k` whose mailbox is closed and the resulting
`remove_client(client_name)` call does not come back with `Ok` — in this
embedding the only non-`Ok` outcomes the source can produce there:
suspension or divergence — the `?` on chat.rs line 95 propagates that
outcome as the whole broadcast's result at once, and no peer still
unvisited in the iteration has received a copy of the original message
(their queues gained at most synthetic `UserLeft` notices). -/
theorem c10_failure_short_circuits (fuel' : Nat) (ps : Registry) (m : Message)
    (k : String) (ks : List String) (mb : Mailbox)
    (hk : ¬ k = m.client_name) (hlk : lookupPeer ps k = some mb)
    (hcl : mb.closed = true)
    (hm : ¬ m = Message.userLeft m.client_name)
    (hfail : ∀ qs, ¬ remove_client fuel' ps m.client_name = .ok qs) :
    broadcastAux (fuel' + 1) ps (k :: ks) m = remove_client fuel' ps m.client_name ∧
    (∀ b qs, remove_client fuel' ps m.client_name = .blockedAt b qs →
      ∀ j ∈ ks, ∀ mb', lookupPeer qs j = some mb' →
        ∃ mbj, lookupPeer ps j = some mbj ∧
          mb'.queue.count m = mbj.queue.count m) := by
  constructor
  · have hstep : broadcastAux (fuel' + 1) ps (k :: ks) m =
        match remove_client fuel' ps m.client_name with
        | .ok qs => broadcastAux fuel' qs ks m
        | r => r := by
      simp [broadcastAux, hk, hlk, hcl, remove_client, broadcast]
    rw [hstep]
    cases hrc : remove_client fuel' ps m.client_name with
    | ok qs1 => exact absurd hrc (hfail qs1)
    | blockedAt b1 qs1 => rfl
    | fuelOut => rfl
  · intro b qs hrc j _ mb' hl'
    rw [remove_client, broadcast] at hrc
    have hext := broadcastAux_extOnly fuel'
      ((removePeer ps m.client_name).map Prod.fst)
      (removePeer ps m.client_name) (.userLeft m.client_name) qs
      (Or.inr ⟨b, hrc⟩)
    obtain ⟨mbj, ext, hl1, _, hqeq, hpext⟩ := hext j mb' hl'
    have hjcn : ¬ j = m.client_name := by
      intro hh
      rw [hh, lookupPeer_removePeer_self] at hl1
      cases hl1
    rw [lookupPeer_removePeer_other ps hjcn] at hl1
    refine ⟨mbj, hl1, ?_⟩
    rw [hqeq, List.count_append]
    have hz : ext.count m = 0 := by
      rw [List.count_eq_zero]
      intro hmem
      have hp := hpext m hmem
      rcases hp.1 with hp1 | hp1
      · exact hm hp1
      · exact hm (by rw [hp1]; rfl)
    omega

/-- C10 witness: on {o (broadcaster), x (closed), z}, the inner removal
step diverges, and the loop reaching x propagates that outcome as the
whole broadcast's result. -/
theorem c10_witness :
    broadcastAux 3 [("o", ⟨false, []⟩), ("x", ⟨true, []⟩), ("z", ⟨false, []⟩)]
      ["x", "z"] (.chat "o" "hi") = .fuelOut := by
  have hrc : remove_client 2 [("o", ⟨false, []⟩), ("x", ⟨true, []⟩), ("z", ⟨false, []⟩)]
      (Message.chat "o" "hi").client_name = .fuelOut := rfl
  have h := (c10_failure_short_circuits 2
    [("o", ⟨false, []⟩), ("x", ⟨true, []⟩), ("z", ⟨false, []⟩)]
    (.chat "o" "hi") "x" ["z"] ⟨true, []⟩
    (by decide) rfl rfl (by decide)
    (fun qs hq => by rw [hrc] at hq; cases hq)).1
  rw [h, hrc]

/-- Helper for C7: a mailbox at exactly the channel capacity. -/
def fullQueue : List Message := List.replicate CHANNEL_BUFFER_SIZE (.chat "p1" "x")

/-- Helper for C7: "full" has an open mailbox at capacity; "z" is a
healthy peer visited after it. -/
def c7Registry : Registry :=
  [("p1", ⟨false, []⟩), ("full", ⟨false, fullQueue⟩), ("z", ⟨false, []⟩)]

/-- C7 counterexample: the claim says a full mailbox can stall delivery
only to itself, never to any other peer.  In the code the sends happen
sequentially (`send(..).await` on chat.rs line 93), so on
{p1, full (at capacity), z} a chat by "p1" suspends inside the send to
"full" with the registry unchanged: "z" — open, empty, perfectly able to
accept — has received nothing at the moment the broadcast suspends, and
can receive nothing until "full" drains. -/
theorem c7_counterexample :
    broadcast 5 c7Registry (.chat "p1" "hello") = .blockedAt "full" c7Registry ∧
    lookupPeer c7Registry "z" = some ⟨false, []⟩ ∧
    (∀ qs, ¬ broadcast 5 c7Registry (.chat "p1" "hello") = .ok qs) := by
  have hlen : CHANNEL_BUFFER_SIZE ≤ fullQueue.length := by
    simp [fullQueue]
  have hb : broadcast 5 c7Registry (.chat "p1" "hello") = .blockedAt "full" c7Registry := by
    simp [broadcast, broadcastAux, c7Registry, lookupPeer, Message.client_name, hlen]
  refine ⟨hb, rfl, fun qs hq => ?_⟩
  rw [hb] at hq
  cases hq

/-- C7 amended: the sends of one fan-out are sequential, not independent.
A peer `k` whose mailbox is open but at capacity suspends the whole
broadcast inside the send to `k`: peers visited before `k` have the
message, `k` itself does not have it yet, and every peer after `k` in
the iteration is untouched — delivery to them is delayed until `k`'s
mailbox makes room.  Only a closed mailbox is handled without waiting
(by the eviction path). -/
theorem c7_amended_sequential_sends (fuel : Nat) (pre post : Registry) (k : String)
    (mb : Mailbox) (m : Message)
    (hnd : ((pre ++ (k, mb) :: post).map Prod.fst).Nodup)
    (hk : ¬ k = m.client_name)
    (hopen : mb.closed = false) (hfull : CHANNEL_BUFFER_SIZE ≤ mb.queue.length)
    (hpre : ∀ e ∈ pre, ¬ e.1 = m.client_name →
      e.2.closed = false ∧ e.2.queue.length < CHANNEL_BUFFER_SIZE)
    (hfuel : pre.length < fuel) :
    broadcast fuel (pre ++ (k, mb) :: post) m =
      .blockedAt k ((pre.map (fun e =>
        if ¬ e.1 = m.client_name then (e.1, ⟨e.2.closed, e.2.queue ++ [m]⟩) else e))
        ++ (k, mb) :: post) := by
  have hkeys : (pre ++ (k, mb) :: post).map Prod.fst =
      pre.map Prod.fst ++ k :: post.map Prod.fst := by
    rw [List.map_append, List.map_cons]
  have hnd' := hnd
  rw [hkeys, List.nodup_append] at hnd'
  obtain ⟨hndpre, _, hdisj⟩ := hnd'
  have hknotin : ¬ k ∈ pre.map Prod.fst := fun hh => hdisj hh (by simp)
  have hlkpre : lookupPeer pre k = none := lookupPeer_none_of_not_mem_keys hknotin
  have hlk : lookupPeer (pre ++ (k, mb) :: post) k = some mb := by
    rw [lookupPeer_append_right _ hlkpre]
    simp [lookupPeer]
  have hprekeys : ∀ j ∈ pre.map Prod.fst, ¬ j = m.client_name → ∀ mbj,
      lookupPeer (pre ++ (k, mb) :: post) j = some mbj →
      mbj.closed = false ∧ mbj.queue.length < CHANNEL_BUFFER_SIZE := by
    intro j hj hjcn mbj hlj
    obtain ⟨mb0, hmb0⟩ := lookupPeer_isSome_of_mem_keys hj
    have hlj0 : lookupPeer (pre ++ (k, mb) :: post) j = some mb0 :=
      lookupPeer_append_left _ hmb0
    rw [hlj0] at hlj
    have hmbj : mbj = mb0 := (Option.some.inj hlj).symm
    subst hmbj
    exact hpre (j, mbj) (lookupPeer_some_mem hmb0) hjcn
  have hfuel' : (pre.map Prod.fst).length < fuel := by
    rw [List.length_map]
    exact hfuel
  rw [broadcast, hkeys,
    broadcastAux_blocked m (pre.map Prod.fst) fuel (pre ++ (k, mb) :: post) k mb
      (post.map Prod.fst) hndpre hknotin hprekeys hlk hk hopen hfull hfuel',
    patchKeys_decompose pre post k mb m hnd]

/-- C7 amended witness: on {p1 (originator), full (at capacity), z}, the
broadcast suspends at "full" with the registry exactly as before —
nothing delivered to "full" or "z". -/
theorem c7_witness :
    broadcast 2 ([("p1", ⟨false, []⟩)] ++ ("full", (⟨false, fullQueue⟩ : Mailbox)) ::
        [("z", ⟨false, []⟩)]) (.chat "p1" "hello") =
      .blockedAt "full" (([("p1", (⟨false, []⟩ : Mailbox))].map (fun e =>
        if ¬ e.1 = (Message.chat "p1" "hello").client_name
        then (e.1, ⟨e.2.closed, e.2.queue ++ [Message.chat "p1" "hello"]⟩) else e))
        ++ ("full", (⟨false, fullQueue⟩ : Mailbox)) :: [("z", ⟨false, []⟩)]) :=
  c7_amended_sequential_sends 2 [("p1", ⟨false, []⟩)]
    [("z", ⟨false, []⟩)] "full" ⟨false, fullQueue⟩ (.chat "p1" "hello")
    (by decide) (by decide) rfl
    (by simp [fullQueue])
    (by intro e he hcn
        simp at he
        rw [he] at hcn
        exact absurd rfl hcn)
    (by decide)

end Chat
